import Mathlib

/-!
Verification of the ICD-11 diagnosis classifier (`src/app.py`).

Python strings are embedded as lists of Unicode code points (`List Nat`),
so Python's lexicographic string comparison, `str.strip`, `str.upper`
(restricted to the ASCII range actually exercised by the program) and
`str.startswith` become executable Lean functions on `List Nat`.
-/

namespace App

/-- A Python string, as its list of code points. -/
abbrev PyStr := List Nat

/-- Code points of a Lean string literal, to write the embedded Python
string constants readably. -/
def codepoints (s : String) : PyStr := s.data.map Char.toNat

/-- Python `str.strip` whitespace test, restricted to the ASCII whitespace
characters. -/
def isSpaceB (c : Nat) : Bool :=
  c == 32 || c == 9 || c == 10 || c == 13 || c == 11 || c == 12

/-- Python `str.upper` on one code point (ASCII range). -/
def upperC (c : Nat) : Nat := if 97 ≤ c ∧ c ≤ 122 then c - 32 else c

/-- Python `s.upper()`. -/
def pyUpper (l : PyStr) : PyStr := l.map upperC

/-- Drop trailing whitespace. -/
def dropTrail (l : PyStr) : PyStr := (l.reverse.dropWhile isSpaceB).reverse

/-- Python `s.strip()`: drop leading and trailing whitespace. -/
def stripL (l : PyStr) : PyStr := dropTrail (l.dropWhile isSpaceB)

/-- Normalization in the style of `str(code).strip().upper()` (strip, then upper). -/
def normalize (l : PyStr) : PyStr := pyUpper (stripL l)

/-- Python string `<=` : lexicographic comparison on code points, with a
proper prefix comparing smaller. -/
def strLe : PyStr → PyStr → Bool
  | [], _ => true
  | _ :: _, [] => false
  | a :: as, b :: bs => if a < b then true else if b < a then false else strLe as bs

/-- Python string `<`. -/
def strLt : PyStr → PyStr → Bool
  | [], [] => false
  | [], _ :: _ => true
  | _ :: _, [] => false
  | a :: as, b :: bs => if a < b then true else if b < a then false else strLt as bs

/-- Python `code.startswith(pre)`. -/
def startswith : PyStr → PyStr → Bool
  | _, [] => true
  | [], _ :: _ => false
  | b :: ls, a :: ps => a == b && startswith ls ps

/-- A Python value that can reach `find_category` (`str(code)` accepts
anything; the program feeds it strings, and `str` also covers numbers and
`None`). -/
inductive PyVal where
  | str (s : PyStr)
  | int (n : Int)
  | none
deriving DecidableEq

/-- Python `str(v)` for the embedded values. -/
def pyStr : PyVal → PyStr
  | .str s => s
  | .int n => codepoints (toString n)
  | .none => codepoints "None"

/-- The `icd11_ranges` table of `app.py` lines 9–32: 22 chapters, each a
label with an inclusive start and end code, in declaration order
(Python dicts preserve insertion order). -/
def icd11_ranges : List (String × PyStr × PyStr) :=
  [("1. Certain infectious or parasitic diseases", codepoints "1A00", codepoints "1H0Z"),
   ("2. Neoplasms", codepoints "2A00", codepoints "2F9Z"),
   ("3. Diseases of the blood or blood-forming organs", codepoints "3A00", codepoints "3C0Z"),
   ("4. Diseases of the immune system", codepoints "4A00", codepoints "4B4Z"),
   ("5. Endocrine, nutritional and metabolic diseases", codepoints "5A00", codepoints "5D46"),
   ("6. Mental, behavioural and neurodevelopmental disorders", codepoints "6A00", codepoints "6E8Z"),
   ("7. Sleep-wake disorders", codepoints "7A00", codepoints "7B2Z"),
   ("8. Diseases of the nervous system", codepoints "8A00", codepoints "8E7Z"),
   ("9. Diseases of the visual system", codepoints "9A00", codepoints "9E1Z"),
   ("10. Diseases of the ear or mastoid process", codepoints "AA00", codepoints "AC0Z"),
   ("11. Diseases of the circulatory system", codepoints "BA00", codepoints "BE2Z"),
   ("12. Diseases of the respiratory system", codepoints "CA00", codepoints "CB7Z"),
   ("13. Diseases of the digestive system", codepoints "DA00", codepoints "DE2Z"),
   ("14. Diseases of the skin or subcutaneous tissue", codepoints "EA00", codepoints "EM0Z"),
   ("15. Diseases of musculoskeletal system", codepoints "FA00", codepoints "FC0Z"),
   ("16. Diseases of the genitourinary system", codepoints "GA00", codepoints "GC8Z"),
   ("17. Sexual health conditions", codepoints "HA00", codepoints "HA8Z"),
   ("18. Pregnancy/childbirth", codepoints "JA00", codepoints "JB6Z"),
   ("19. Perinatal conditions", codepoints "KA00", codepoints "KD5Z"),
   ("20. Developmental anomalies", codepoints "LA00", codepoints "LD9Z"),
   ("21. Symptoms/clinical findings NEC", codepoints "MA00", codepoints "MH2Y"),
   ("22. Injury/poisoning/external causes", codepoints "NA00", codepoints "NF2Z")]

/-- The loop body of `find_category` (`app.py` lines 39–44): walk the
table in order; per entry test the inclusive range first, then the
`code.startswith(start[:2])` fallback; return `"Unknown"` if no entry
matches. -/
def find_categoryAux : List (String × PyStr × PyStr) → PyStr → String
  | [], _ => "Unknown"
  | (category, s, e) :: rest, code =>
    if strLe s code && strLe code e then category
    else if startswith code (s.take 2) then category
    else find_categoryAux rest code

/-- The function `find_category` (`app.py` lines 37–44):
`code = str(code).strip().upper()`, then the table walk. -/
def find_category (code : PyVal) : String :=
  find_categoryAux icd11_ranges (normalize (pyStr code))

/-- One row of the loaded dataset after `app.py` lines 90–91: the code
column holds the normalized code, `ICD_Category` its classification. -/
structure Record where
  code : PyStr
  category : String
deriving DecidableEq

/-- Loading one raw cell (`app.py` lines 90–91): the column value is
`astype(str).str.strip().str.upper()`, then `ICD_Category` is
`find_category` of that normalized value. -/
def loadRecord (v : PyVal) : Record :=
  { code := normalize (pyStr v), category := find_category (.str (normalize (pyStr v))) }

/-- Loading a whole column of raw cells in order. -/
def loadCollection (vs : List PyVal) : List Record := vs.map loadRecord

/-- The distinct elements of a list, each kept at its first occurrence,
in first-encountered order. -/
def distinctFirst : List String → List String
  | [] => []
  | x :: xs => x :: (distinctFirst xs).filter (fun y => y != x)

/-- Ordering used by the frequency table: descending count. -/
def byCountDesc (p q : String × Nat) : Prop := q.2 ≤ p.2

instance : DecidableRel byCountDesc := fun p q => inferInstanceAs (Decidable (q.2 ≤ p.2))

instance : IsTotal (String × Nat) byCountDesc := ⟨fun p q => le_total q.2 p.2⟩

instance : IsTrans (String × Nat) byCountDesc := ⟨fun _ _ _ h1 h2 => le_trans h2 h1⟩

/-- Modelled from the behavior of the external library call
`data["ICD_Category"].value_counts()` (`app.py` line 127): tally the
labels in first-encountered order, then stable-sort by descending count
(ties keep first-encountered order). -/
def value_counts (l : List String) : List (String × Nat) :=
  List.insertionSort byCountDesc ((distinctFirst l).map fun x => (x, l.count x))

/-- The Summary tab's frequency table (`app.py` lines 127–128). -/
def summary (data : List Record) : List (String × Nat) :=
  value_counts (data.map Record.category)

/-- The Range Search tab's filter (`app.py` line 156):
`data[(data[col] >= start.upper()) & (data[col] <= end.upper())]`,
where `data[col]` is the normalized code column. -/
def range_search (data : List Record) (start stop : PyStr) : List Record :=
  data.filter fun r => strLe (pyUpper start) r.code && strLe r.code (pyUpper stop)

/-- The Specific Code Search tab's filter (`app.py` lines 175–176):
`data[data[col].str.startswith(sc.upper())].copy()`, then the copy's
`ICD_Category` column is recomputed with `find_category` on the code
column. -/
def specific_code_search (data : List Record) (sc : PyStr) : List Record :=
  (data.filter fun r => startswith r.code (pyUpper sc)).map
    fun r => { r with category := find_category (.str r.code) }

/-- The Range Search tab as a state transformer on `st.session_state.data`:
it reads the stored collection and never assigns to it, so the post-state
is passed through unchanged. -/
def range_search_op (st : List Record) (start stop : PyStr) :
    List Record × List Record :=
  (range_search st start stop, st)

/-- The Specific Code Search tab as a state transformer on
`st.session_state.data`: the filtered frame is `.copy()`-ed before its
`ICD_Category` column is overwritten, so the stored collection is passed
through unchanged. -/
def specific_code_search_op (st : List Record) (sc : PyStr) :
    List Record × List Record :=
  (specific_code_search st sc, st)

/-! ### Structural facts about the classifier's table walk -/

/-- A table entry is well-headed when its start and end codes are nonempty
and share their first code point. -/
def headsAgree (x : String × PyStr × PyStr) : Bool :=
  match x.2.1, x.2.2 with
  | a :: _, b :: _ => a == b
  | _, _ => false

/-- First code point of a code (0 for the empty code). -/
def hd0 (l : PyStr) : Nat := l.headD 0

theorem strLe_head_eq {a : Nat} {s' e' : PyStr} : ∀ {c : PyStr},
    strLe (a :: s') c = true → strLe c (a :: e') = true → ∃ c', c = a :: c'
  | [], h1, _ => by simp [strLe] at h1
  | b :: bs, h1, h2 => by
    refine ⟨bs, ?_⟩
    rcases Nat.lt_trichotomy a b with h | h | h
    · rw [strLe, if_neg (Nat.lt_asymm h), if_pos h] at h2
      exact absurd h2 (by simp)
    · rw [h]
    · rw [strLe, if_neg (Nat.lt_asymm h), if_pos h] at h1
      exact absurd h1 (by simp)

theorem strLe_head_lt {a b : Nat} (h : b < a) (c' e' : PyStr) :
    strLe (a :: c') (b :: e') = false := by
  rw [strLe, if_neg (Nat.lt_asymm h), if_pos h]

theorem startswith_head_ne {a b : Nat} (h : b ≠ a) (c' p : PyStr) :
    startswith (a :: c') (b :: p) = false := by
  simp [startswith, h]

/-- On a well-headed table with strictly increasing first code points, a
code lying in some entry's inclusive range is classified as that entry's
label: no earlier entry can capture it. -/
theorem find_categoryAux_range (tbl : List (String × PyStr × PyStr))
    (hwf : tbl.all headsAgree = true)
    (hp : tbl.Pairwise fun x y => hd0 x.2.1 < hd0 y.2.1)
    {lbl : String} {s e c : PyStr} (hm : (lbl, s, e) ∈ tbl)
    (h1 : strLe s c = true) (h2 : strLe c e = true) :
    find_categoryAux tbl c = lbl := by
  induction tbl with
  | nil => cases hm
  | cons t ts ih =>
    rcases List.mem_cons.mp hm with heq | hmem
    · rw [← heq]
      simp only [find_categoryAux]
      rw [if_pos (by rw [h1, h2]; rfl)]
    · obtain ⟨tl, td, te⟩ := t
      have hall := List.all_eq_true.mp hwf
      have hwf_t : headsAgree (tl, td, te) = true := hall _ (List.mem_cons_self _ _)
      have hwf_ts : ts.all headsAgree = true :=
        List.all_eq_true.mpr fun x hx => hall x (List.mem_cons_of_mem _ hx)
      have hwf_e : headsAgree (lbl, s, e) = true := hall _ (List.mem_cons_of_mem _ hmem)
      obtain ⟨hrel, hp_ts⟩ := List.pairwise_cons.mp hp
      cases s with
      | nil => simp [headsAgree] at hwf_e
      | cons a s2 =>
      cases e with
      | nil => simp [headsAgree] at hwf_e
      | cons a' e2 =>
      have haa : a = a' := by simpa [headsAgree] using hwf_e
      rw [← haa] at h2
      obtain ⟨c2, hc⟩ := strLe_head_eq h1 h2
      cases td with
      | nil => simp [headsAgree] at hwf_t
      | cons b t2 =>
      cases te with
      | nil => simp [headsAgree] at hwf_t
      | cons b' te2 =>
      have hbb : b = b' := by simpa [headsAgree] using hwf_t
      have hba : b < a := by
        have := hrel _ hmem
        simpa [hd0] using this
      simp only [find_categoryAux]
      rw [hc, ← hbb]
      rw [if_neg (by simp [strLe_head_lt hba]),
        if_neg (by simp [List.take, startswith_head_ne (Nat.ne_of_lt hba)])]
      rw [← hc]
      exact ih hwf_ts hp_ts hmem

/-- On a well-headed table with strictly increasing first code points, a
code failing some entry's range test but matching its two-character start
fallback is classified as that entry's label. -/
theorem find_categoryAux_fallback (tbl : List (String × PyStr × PyStr))
    (hwf : tbl.all headsAgree = true)
    (hp : tbl.Pairwise fun x y => hd0 x.2.1 < hd0 y.2.1)
    {lbl : String} {s e c : PyStr} (hm : (lbl, s, e) ∈ tbl)
    (h1 : (strLe s c && strLe c e) = false)
    (h2 : startswith c (s.take 2) = true) :
    find_categoryAux tbl c = lbl := by
  induction tbl with
  | nil => cases hm
  | cons t ts ih =>
    rcases List.mem_cons.mp hm with heq | hmem
    · rw [← heq]
      simp only [find_categoryAux]
      rw [if_neg (by simp [h1]), if_pos h2]
    · obtain ⟨tl, td, te⟩ := t
      have hall := List.all_eq_true.mp hwf
      have hwf_t : headsAgree (tl, td, te) = true := hall _ (List.mem_cons_self _ _)
      have hwf_ts : ts.all headsAgree = true :=
        List.all_eq_true.mpr fun x hx => hall x (List.mem_cons_of_mem _ hx)
      have hwf_e : headsAgree (lbl, s, e) = true := hall _ (List.mem_cons_of_mem _ hmem)
      obtain ⟨hrel, hp_ts⟩ := List.pairwise_cons.mp hp
      cases s with
      | nil => simp [headsAgree] at hwf_e
      | cons a s2 =>
      obtain ⟨c2, hc⟩ : ∃ c2, c = a :: c2 := by
        cases c with
        | nil => simp [List.take, startswith] at h2
        | cons a' c2 =>
          rw [List.take, startswith, Bool.and_eq_true] at h2
          have haa : a = a' := by simpa using h2.1
          exact ⟨c2, by rw [haa]⟩
      cases td with
      | nil => simp [headsAgree] at hwf_t
      | cons b t2 =>
      cases te with
      | nil => simp [headsAgree] at hwf_t
      | cons b' te2 =>
      have hbb : b = b' := by simpa [headsAgree] using hwf_t
      have hba : b < a := by
        have := hrel _ hmem
        simpa [hd0] using this
      simp only [find_categoryAux]
      rw [hc, ← hbb]
      rw [if_neg (by simp [strLe_head_lt hba]),
        if_neg (by simp [List.take, startswith_head_ne (Nat.ne_of_lt hba)])]
      rw [← hc]
      exact ih hwf_ts hp_ts hmem

/-- If no entry of the table matches the code under either test, the walk
falls through to `"Unknown"`. -/
theorem find_categoryAux_unknown (tbl : List (String × PyStr × PyStr)) {c : PyStr}
    (h : ∀ lbl s e, (lbl, s, e) ∈ tbl →
      (strLe s c && strLe c e) = false ∧ startswith c (s.take 2) = false) :
    find_categoryAux tbl c = "Unknown" := by
  induction tbl with
  | nil => rfl
  | cons t ts ih =>
    obtain ⟨tl, td, te⟩ := t
    obtain ⟨hr, hpp⟩ := h tl td te (.head _)
    simp only [find_categoryAux]
    rw [if_neg (by simp [hr]), if_neg (by simp [hpp])]
    exact ih fun lbl s e hm => h lbl s e (.tail _ hm)

/-- The concrete table is well-headed. -/
theorem icd11_ranges_wf : icd11_ranges.all headsAgree = true := by decide

/-- The concrete table's first code points are strictly increasing in
declaration order. -/
theorem icd11_ranges_heads :
    icd11_ranges.Pairwise fun x y => hd0 x.2.1 < hd0 y.2.1 := by decide

/-! ### Normalization is idempotent -/

theorem upperC_idem (c : Nat) : upperC (upperC c) = upperC c := by
  unfold upperC
  split_ifs <;> omega

theorem isSpaceB_false_of_ge {x : Nat} (h : 33 ≤ x) : isSpaceB x = false := by
  unfold isSpaceB
  simp only [Bool.or_eq_false_iff, beq_eq_false_iff_ne]
  omega

theorem isSpaceB_upperC (c : Nat) : isSpaceB (upperC c) = isSpaceB c := by
  unfold upperC
  split_ifs with h
  · rw [isSpaceB_false_of_ge (by omega), isSpaceB_false_of_ge (by omega)]
  · rfl

theorem pyUpper_idem (l : PyStr) : pyUpper (pyUpper l) = pyUpper l := by
  induction l with
  | nil => rfl
  | cons a as ih =>
    show upperC (upperC a) :: pyUpper (pyUpper as) = upperC a :: pyUpper as
    rw [upperC_idem, ih]

theorem dropWhile_pyUpper (l : PyStr) :
    (pyUpper l).dropWhile isSpaceB = pyUpper (l.dropWhile isSpaceB) := by
  induction l with
  | nil => rfl
  | cons a as ih =>
    show (upperC a :: pyUpper as).dropWhile isSpaceB = pyUpper ((a :: as).dropWhile isSpaceB)
    by_cases h : isSpaceB a = true
    · rw [List.dropWhile_cons_of_pos (by rw [isSpaceB_upperC]; exact h),
        List.dropWhile_cons_of_pos h]
      exact ih
    · rw [List.dropWhile_cons_of_neg (by rw [isSpaceB_upperC]; exact h),
        List.dropWhile_cons_of_neg h]
      rfl

theorem pyUpper_reverse (l : PyStr) : (pyUpper l).reverse = pyUpper l.reverse :=
  (List.map_reverse upperC l).symm

theorem dropTrail_pyUpper (l : PyStr) : dropTrail (pyUpper l) = pyUpper (dropTrail l) := by
  unfold dropTrail
  rw [pyUpper_reverse, dropWhile_pyUpper, pyUpper_reverse]

theorem stripL_pyUpper (l : PyStr) : stripL (pyUpper l) = pyUpper (stripL l) := by
  unfold stripL
  rw [dropWhile_pyUpper, dropTrail_pyUpper]

theorem dropWhile_idem (p : Nat → Bool) (l : PyStr) :
    (l.dropWhile p).dropWhile p = l.dropWhile p := by
  induction l with
  | nil => rfl
  | cons a as ih =>
    by_cases h : p a = true
    · rw [List.dropWhile_cons_of_pos h]; exact ih
    · rw [List.dropWhile_cons_of_neg h, List.dropWhile_cons_of_neg h]

theorem dropWhile_suffix_exists (p : Nat → Bool) (l : PyStr) :
    ∃ u, l = u ++ l.dropWhile p := by
  induction l with
  | nil => exact ⟨[], rfl⟩
  | cons a as ih =>
    by_cases h : p a = true
    · obtain ⟨u, hu⟩ := ih
      refine ⟨a :: u, ?_⟩
      rw [List.dropWhile_cons_of_pos h, List.cons_append, ← hu]
    · exact ⟨[], by rw [List.dropWhile_cons_of_neg h]; rfl⟩

theorem dropWhile_dropTrail {m : PyStr} (hm : m.dropWhile isSpaceB = m) :
    (dropTrail m).dropWhile isSpaceB = dropTrail m := by
  obtain ⟨u, hu⟩ := dropWhile_suffix_exists isSpaceB m.reverse
  have hsplit : m = dropTrail m ++ u.reverse := by
    conv_lhs => rw [← m.reverse_reverse, hu]
    rw [List.reverse_append]
    rfl
  cases hdt : dropTrail m with
  | nil => rfl
  | cons a v =>
    rw [hdt] at hsplit
    rw [List.cons_append] at hsplit
    by_cases hp : isSpaceB a = true
    · exfalso
      rw [hsplit, List.dropWhile_cons_of_pos hp] at hm
      have hlen := List.Sublist.length_le (List.dropWhile_sublist (l := v ++ u.reverse) isSpaceB)
      have := congrArg List.length hm
      simp only [List.length_cons] at this
      omega
    · rw [List.dropWhile_cons_of_neg hp]

theorem stripL_idem (l : PyStr) : stripL (stripL l) = stripL l := by
  show stripL (dropTrail (l.dropWhile isSpaceB)) = stripL l
  unfold stripL
  rw [dropWhile_dropTrail (dropWhile_idem _ l)]
  unfold dropTrail
  rw [List.reverse_reverse, dropWhile_idem]

theorem normalize_idem (l : PyStr) : normalize (normalize l) = normalize l := by
  unfold normalize
  rw [stripL_pyUpper, stripL_idem, pyUpper_idem]

/-! ### The string order is transitive and total -/

theorem strLe_trans : ∀ {a b c : PyStr}, strLe a b = true → strLe b c = true → strLe a c = true
  | [], _, _, _, _ => rfl
  | _ :: _, [], _, h1, _ => by simp [strLe] at h1
  | _ :: _, _ :: _, [], _, h2 => by simp [strLe] at h2
  | x :: xs, y :: ys, z :: zs, h1, h2 => by
    rcases Nat.lt_trichotomy x z with h | h | h
    · rw [strLe, if_pos h]
    · rcases Nat.lt_trichotomy x y with hxy | hxy | hxy
      · rw [strLe, if_neg (by omega), if_pos (by omega)] at h2
        exact absurd h2 (by simp)
      · rw [strLe, if_neg (by omega), if_neg (by omega)] at h1
        rw [strLe, if_neg (by omega), if_neg (by omega)] at h2
        rw [strLe, if_neg (by omega), if_neg (by omega)]
        exact strLe_trans h1 h2
      · rw [strLe, if_neg (by omega), if_pos (by omega)] at h1
        exact absurd h1 (by simp)
    · rcases Nat.lt_trichotomy x y with hxy | hxy | hxy
      · rw [strLe, if_neg (by omega), if_pos (by omega)] at h2
        exact absurd h2 (by simp)
      · rw [strLe, if_neg (by omega), if_pos (by omega)] at h2
        exact absurd h2 (by simp)
      · rw [strLe, if_neg (by omega), if_pos (by omega)] at h1
        exact absurd h1 (by simp)

theorem strLt_eq_not_strLe : ∀ (a b : PyStr), strLt a b = !(strLe b a)
  | [], [] => rfl
  | [], _ :: _ => rfl
  | _ :: _, [] => rfl
  | x :: xs, y :: ys => by
    rw [strLt, strLe]
    rcases Nat.lt_trichotomy x y with h | h | h
    · rw [if_pos h, if_neg (by omega), if_pos h]
      rfl
    · rw [if_neg (by omega), if_neg (by omega), if_neg (by omega), if_neg (by omega)]
      exact strLt_eq_not_strLe xs ys
    · rw [if_neg (by omega), if_pos h, if_pos h]
      rfl

/-! ### Properties of the frequency table -/

theorem distinctFirst_nodup (l : List String) : (distinctFirst l).Nodup := by
  induction l with
  | nil => exact List.nodup_nil
  | cons x xs ih =>
    rw [distinctFirst]
    refine List.nodup_cons.mpr ⟨?_, List.Nodup.filter _ ih⟩
    intro hx
    have hne := (List.mem_filter.mp hx).2
    simp at hne

theorem mem_distinctFirst (l : List String) (a : String) :
    a ∈ distinctFirst l ↔ a ∈ l := by
  induction l with
  | nil => exact Iff.rfl
  | cons x xs ih =>
    rw [distinctFirst]
    constructor
    · intro h
      rcases List.mem_cons.mp h with rfl | h
      · exact List.mem_cons_self _ _
      · exact List.mem_cons_of_mem _ (ih.mp (List.mem_filter.mp h).1)
    · intro h
      rcases List.mem_cons.mp h with rfl | h
      · exact List.mem_cons_self _ _
      · by_cases hax : a = x
        · subst hax; exact List.mem_cons_self _ _
        · refine List.mem_cons_of_mem _ (List.mem_filter.mpr ⟨ih.mpr h, ?_⟩)
          simpa using hax

theorem sum_map_filter_ne (f : String → Nat) (x : String) :
    ∀ {D : List String}, D.Nodup →
      (((D.filter fun y => y != x).map f).sum + if x ∈ D then f x else 0) = (D.map f).sum := by
  intro D
  induction D with
  | nil => intro _; rfl
  | cons d ds ih =>
    intro hnd
    obtain ⟨hd_not, hds⟩ := List.nodup_cons.mp hnd
    by_cases hdx : d = x
    · subst hdx
      rw [List.filter_cons_of_neg (by simp), if_pos (List.mem_cons_self _ _)]
      have hfilter : ds.filter (fun y => y != d) = ds :=
        List.filter_eq_self.mpr fun a ha => by
          simp only [bne_iff_ne, ne_eq]
          exact fun had => hd_not (had ▸ ha)
      rw [hfilter, List.map_cons, List.sum_cons]
      omega
    · have hne : ((fun y => y != x) d) = true := by simpa using hdx
      rw [@List.filter_cons_of_pos String (fun y => y != x) d ds hne, List.map_cons, List.sum_cons,
        List.map_cons, List.sum_cons]
      have hif : (if x ∈ d :: ds then f x else 0) = (if x ∈ ds then f x else 0) := by
        by_cases hxds : x ∈ ds
        · rw [if_pos (List.mem_cons_of_mem _ hxds), if_pos hxds]
        · rw [if_neg ?hmemneg, if_neg hxds]
          case hmemneg =>
            intro h
            rcases List.mem_cons.mp h with h' | h'
            · exact hdx h'.symm
            · exact hxds h'
      rw [hif]
      have hih := ih hds
      omega

theorem sum_counts_distinctFirst : ∀ l : List String,
    ((distinctFirst l).map fun x => l.count x).sum = l.length
  | [] => rfl
  | x :: xs => by
    simp only [distinctFirst, List.map_cons, List.sum_cons, List.length_cons]
    have hcx : (x :: xs).count x = xs.count x + 1 := by
      rw [List.count_cons]; simp
    have hmap : (((distinctFirst xs).filter fun y => y != x).map fun y => (x :: xs).count y)
        = ((distinctFirst xs).filter fun y => y != x).map fun y => xs.count y := by
      apply List.map_congr_left
      intro a ha
      have hne : a ≠ x := by simpa using (List.mem_filter.mp ha).2
      rw [List.count_cons]
      have hxa : ¬ (x == a) = true := by
        simp only [beq_iff_eq]
        exact fun h => hne h.symm
      rw [if_neg hxa, Nat.add_zero]
    rw [hcx, hmap]
    have hsum : ((((distinctFirst xs).filter fun y => y != x).map fun y => xs.count y).sum
        + if x ∈ distinctFirst xs then xs.count x else 0)
        = ((distinctFirst xs).map fun y => xs.count y).sum :=
      sum_map_filter_ne (fun y => xs.count y) x (distinctFirst_nodup xs)
    have hrec := sum_counts_distinctFirst xs
    by_cases hx : x ∈ distinctFirst xs
    · rw [if_pos hx] at hsum
      omega
    · rw [if_neg hx] at hsum
      have hx0 : xs.count x = 0 :=
        List.count_eq_zero_of_not_mem fun h => hx ((mem_distinctFirst xs x).mpr h)
      omega

theorem filter_orderedInsert_neg (P : String × Nat → Bool) (x : String × Nat)
    (hx : P x = false) : ∀ l : List (String × Nat),
      (List.orderedInsert byCountDesc x l).filter P = l.filter P
  | [] => by simp [List.orderedInsert, hx]
  | y :: ys => by
    simp only [List.orderedInsert]
    by_cases hr : byCountDesc x y
    · rw [if_pos hr, List.filter_cons_of_neg (by simp [hx])]
    · rw [if_neg hr]
      by_cases hy : P y = true
      · rw [List.filter_cons_of_pos hy, List.filter_cons_of_pos hy,
          filter_orderedInsert_neg P x hx ys]
      · rw [List.filter_cons_of_neg hy, List.filter_cons_of_neg hy,
          filter_orderedInsert_neg P x hx ys]

theorem filter_orderedInsert_pos (P : String × Nat → Bool) (x : String × Nat)
    (hx : P x = true) (hall : ∀ y, P y = true → byCountDesc x y) :
    ∀ l : List (String × Nat),
      (List.orderedInsert byCountDesc x l).filter P = x :: l.filter P
  | [] => by simp [List.orderedInsert, hx]
  | y :: ys => by
    simp only [List.orderedInsert]
    by_cases hr : byCountDesc x y
    · rw [if_pos hr, List.filter_cons_of_pos hx]
    · rw [if_neg hr]
      have hy : P y = false := by
        cases hPy : P y
        · rfl
        · exact absurd (hall y hPy) hr
      rw [List.filter_cons_of_neg (by simp [hy]),
        filter_orderedInsert_pos P x hx hall ys,
        List.filter_cons_of_neg (by simp [hy])]

theorem filter_insertionSort (P : String × Nat → Bool)
    (hPP : ∀ x y, P x = true → P y = true → byCountDesc x y) :
    ∀ l : List (String × Nat),
      (List.insertionSort byCountDesc l).filter P = l.filter P
  | [] => rfl
  | a :: as => by
    simp only [List.insertionSort]
    by_cases ha : P a = true
    · rw [filter_orderedInsert_pos P a ha (fun y hy => hPP a y ha hy),
        filter_insertionSort P hPP as, List.filter_cons_of_pos ha]
    · rw [filter_orderedInsert_neg P a (Bool.eq_false_iff.mpr ha),
        filter_insertionSort P hPP as, List.filter_cons_of_neg ha]

theorem filter_map_general {α β : Type} (f : α → β) (P : β → Bool) :
    ∀ l : List α, (l.map f).filter P = (l.filter fun a => P (f a)).map f
  | [] => rfl
  | a :: as => by
    rw [List.map_cons]
    by_cases h : P (f a) = true
    · rw [List.filter_cons_of_pos h, @List.filter_cons_of_pos α (fun a => P (f a)) a as h,
        List.map_cons, filter_map_general f P as]
    · rw [List.filter_cons_of_neg h,
        @List.filter_cons_of_neg α (fun a => P (f a)) a as h,
        filter_map_general f P as]

theorem scs_codes (data : List Record) (sc : PyStr) :
    (specific_code_search data sc).map Record.code =
      (data.map Record.code).filter fun c => startswith c (pyUpper sc) := by
  simp only [specific_code_search]
  rw [List.map_map, filter_map_general]
  rfl

/-! ### Claims -/

/-- C1: for every code string and every entry (label, start, end) of the
22-entry `icd11_ranges` table, if `start <= normalize(c) <= end` under
lexicographic order on uppercase ASCII, `find_category` returns that
entry's label; both boundaries are included, so `"1A00"` and `"1H0Z"` both
classify to chapter 1. -/
theorem classify_range_membership :
    (∀ (c : PyStr) (lbl : String) (s e : PyStr), (lbl, s, e) ∈ icd11_ranges →
      strLe s (normalize c) = true → strLe (normalize c) e = true →
      find_category (.str c) = lbl)
    ∧ icd11_ranges.length = 22
    ∧ find_category (.str (codepoints "1A00")) = "1. Certain infectious or parasitic diseases"
    ∧ find_category (.str (codepoints "1H0Z")) = "1. Certain infectious or parasitic diseases" := by
  refine ⟨fun c lbl s e hm h1 h2 => ?_, by decide, by decide, by decide⟩
  exact find_categoryAux_range icd11_ranges icd11_ranges_wf icd11_ranges_heads hm h1 h2

/-- Witness for C1 at the concrete in-range code `"2B33"` and the
chapter-2 table entry. -/
theorem classify_range_membership_witness :
    find_category (.str (codepoints "2B33")) = "2. Neoplasms" :=
  classify_range_membership.1 (codepoints "2B33") "2. Neoplasms"
    (codepoints "2A00") (codepoints "2F9Z") (by decide) (by decide) (by decide)

/-- C2: for every entry of the table, a code whose normalized form fails
the entry's range test but starts with the first two characters of the
entry's start code is classified as that entry's label (checks are
interleaved per entry in table order, first match wins). -/
theorem classify_two_char_fallback :
    (∀ (c : PyStr) (lbl : String) (s e : PyStr), (lbl, s, e) ∈ icd11_ranges →
      (strLe s (normalize c) && strLe (normalize c) e) = false →
      startswith (normalize c) (s.take 2) = true →
      find_category (.str c) = lbl)
    ∧ find_category (.str (codepoints "2A")) = "2. Neoplasms" := by
  refine ⟨fun c lbl s e hm h1 h2 => ?_, by decide⟩
  exact find_categoryAux_fallback icd11_ranges icd11_ranges_wf icd11_ranges_heads hm h1 h2

/-- Witness for C2 at the concrete out-of-range code `"1A"` (shorter than
the range bounds, but sharing chapter 1's two-character start). -/
theorem classify_two_char_fallback_witness :
    find_category (.str (codepoints "1A")) = "1. Certain infectious or parasitic diseases" :=
  classify_two_char_fallback.1 (codepoints "1A") "1. Certain infectious or parasitic diseases"
    (codepoints "1A00") (codepoints "1H0Z") (by decide) (by decide) (by decide)

/-- C3: `find_category` is total on strings; whenever no table entry
matches the normalized code under either the range test or the
two-character fallback it returns `"Unknown"`, and in particular the empty
string and `"ZZZZ"` map to `"Unknown"`. -/
theorem classify_unmatched_unknown :
    (∀ c : PyStr, (∀ x ∈ icd11_ranges,
        (strLe x.2.1 (normalize c) && strLe (normalize c) x.2.2) = false ∧
        startswith (normalize c) (x.2.1.take 2) = false) →
      find_category (.str c) = "Unknown")
    ∧ find_category (.str (codepoints "")) = "Unknown"
    ∧ find_category (.str (codepoints "ZZZZ")) = "Unknown" := by
  refine ⟨fun c h => ?_, by decide, by decide⟩
  exact find_categoryAux_unknown icd11_ranges fun lbl s e hm => h (lbl, s, e) hm

/-- Witness for C3 at the concrete unmatched code `"QQQQ"`. -/
theorem classify_unmatched_unknown_witness :
    find_category (.str (codepoints "QQQQ")) = "Unknown" :=
  classify_unmatched_unknown.1 (codepoints "QQQQ") (by decide)

/-- C4: the summary table has one entry per distinct chapter label of the
collection, each entry's count is the number of records carrying that
label, counts sum to the collection's length, entries are in descending
count order, and ties keep first-encountered order. -/
theorem summary_value_counts_spec :
    ∀ data : List Record,
      ((summary data).map Prod.fst).Nodup
      ∧ (∀ lab : String, lab ∈ (summary data).map Prod.fst ↔ lab ∈ data.map Record.category)
      ∧ (∀ p ∈ summary data, p.2 = (data.map Record.category).count p.1)
      ∧ ((summary data).map Prod.snd).sum = data.length
      ∧ (summary data).Pairwise byCountDesc
      ∧ (∀ n : Nat, ((summary data).filter fun p => p.2 == n).map Prod.fst =
          (distinctFirst (data.map Record.category)).filter
            fun lab => (data.map Record.category).count lab == n) := by
  intro data
  have hperm : List.Perm (summary data)
      ((distinctFirst (data.map Record.category)).map
        fun x => (x, (data.map Record.category).count x)) :=
    List.perm_insertionSort _ _
  have hfst : ((distinctFirst (data.map Record.category)).map
      fun x => (x, (data.map Record.category).count x)).map Prod.fst
      = distinctFirst (data.map Record.category) := by
    rw [List.map_map]
    exact List.map_id _
  refine ⟨?_, ?_, ?_, ?_, ?_, ?_⟩
  · refine ((hperm.map Prod.fst).nodup_iff).mpr ?_
    rw [hfst]
    exact distinctFirst_nodup _
  · intro lab
    rw [List.Perm.mem_iff (hperm.map Prod.fst), hfst, mem_distinctFirst]
  · intro p hp
    have hp' := hperm.mem_iff.mp hp
    obtain ⟨x, -, rfl⟩ := List.mem_map.mp hp'
    rfl
  · have h1 := List.Perm.sum_eq (hperm.map Prod.snd)
    rw [h1, List.map_map]
    have h2 : (Prod.snd ∘ fun x => (x, (data.map Record.category).count x))
        = fun x => (data.map Record.category).count x := rfl
    rw [h2, sum_counts_distinctFirst, List.length_map]
  · exact List.sorted_insertionSort byCountDesc _
  · intro n
    have hfil := filter_insertionSort (fun p => p.2 == n)
      (fun x y hx hy => by
        have hx' : x.2 = n := by simpa using hx
        have hy' : y.2 = n := by simpa using hy
        show y.2 ≤ x.2
        omega)
      ((distinctFirst (data.map Record.category)).map
        fun x => (x, (data.map Record.category).count x))
    rw [show summary data = List.insertionSort byCountDesc
        ((distinctFirst (data.map Record.category)).map
          fun x => (x, (data.map Record.category).count x)) from rfl]
    rw [hfil, filter_map_general, List.map_map]
    exact List.map_id _

/-- Witness for C4 on the four-record demo collection: counts sum to the
collection length, and the chapter-2 entry of the summary carries
count 2. -/
theorem summary_value_counts_spec_witness :
    ((summary (loadCollection [.str (codepoints "2A20"), .str (codepoints "1A00"),
        .str (codepoints "zzzz"), .str (codepoints "2a21")])).map Prod.snd).sum = 4
    ∧ (2 : Nat) = ((loadCollection [.str (codepoints "2A20"), .str (codepoints "1A00"),
        .str (codepoints "zzzz"), .str (codepoints "2a21")]).map Record.category).count
          "2. Neoplasms" := by
  obtain ⟨-, -, hcount, hsum, -, -⟩ := summary_value_counts_spec
    (loadCollection [.str (codepoints "2A20"), .str (codepoints "1A00"),
      .str (codepoints "zzzz"), .str (codepoints "2a21")])
  exact ⟨hsum.trans (by decide), hcount ("2. Neoplasms", 2) (by decide)⟩

/-- C5: range search uppercases its bounds and keeps exactly the records
whose normalized code lies between them lexicographically, as a direct
string filter independent of the stored chapter; a record classified
`"Unknown"` is still returned when its code is in the bounds. -/
theorem range_search_filters_by_code :
    (∀ (data : List Record) (start stop : PyStr) (r : Record),
      r ∈ range_search data start stop ↔
        r ∈ data ∧ strLe (pyUpper start) r.code = true ∧ strLe r.code (pyUpper stop) = true)
    ∧ range_search (loadCollection [.str (codepoints "ZZZZ")])
        (codepoints "ZA00") (codepoints "ZZZZ") = loadCollection [.str (codepoints "ZZZZ")]
    ∧ (loadCollection [.str (codepoints "ZZZZ")]).map Record.category = ["Unknown"] := by
  refine ⟨fun data start stop r => ?_, by decide, by decide⟩
  simp [range_search, List.mem_filter, Bool.and_eq_true, and_assoc]

/-- Witness for C5: a concrete record is returned by a concrete in-bounds
query (bounds given in lowercase, exercising the uppercasing). -/
theorem range_search_filters_by_code_witness :
    (⟨codepoints "2A20", "X"⟩ : Record) ∈
      range_search [⟨codepoints "2A20", "X"⟩] (codepoints "2a00") (codepoints "2f9z") :=
  (range_search_filters_by_code.1 [⟨codepoints "2A20", "X"⟩]
      (codepoints "2a00") (codepoints "2f9z") ⟨codepoints "2A20", "X"⟩).mpr
    ⟨by decide, by decide, by decide⟩

/-- C6: when the uppercased start bound exceeds the uppercased end bound
lexicographically, range search returns the empty list for every
collection, with no bound swapping and no failure. -/
theorem range_search_reversed_bounds_empty :
    ∀ (data : List Record) (start stop : PyStr),
      strLt (pyUpper stop) (pyUpper start) = true →
      range_search data start stop = [] := by
  intro data start stop h
  unfold range_search
  rw [List.filter_eq_nil_iff]
  intro r _ hcon
  obtain ⟨h1, h2⟩ := Bool.and_eq_true_iff.mp hcon
  have hse : strLe (pyUpper start) (pyUpper stop) = true := strLe_trans h1 h2
  rw [strLt_eq_not_strLe, hse] at h
  exact absurd h (by simp)

/-- Witness for C6 at the spec's concrete reversed bounds
`("2F00", "2A00")` over a non-empty collection. -/
theorem range_search_reversed_bounds_empty_witness :
    range_search (loadCollection [.str (codepoints "2A20")])
      (codepoints "2F00") (codepoints "2A00") = [] :=
  range_search_reversed_bounds_empty (loadCollection [.str (codepoints "2A20")])
    (codepoints "2F00") (codepoints "2A00") (by decide)

/-- C7: specific-code search uppercases the query and keeps exactly the
records whose normalized code starts with it (the empty query keeps every
record), and every returned record's chapter is recomputed with
`find_category` at query time, whatever chapter value was stored. -/
theorem specific_code_search_spec :
    (∀ (data : List Record) (sc : PyStr),
      (specific_code_search data sc).map Record.code =
        (data.map Record.code).filter fun c => startswith c (pyUpper sc))
    ∧ (∀ (data : List Record) (sc : PyStr) (r : Record),
        r ∈ specific_code_search data sc →
          r.category = find_category (.str r.code) ∧ startswith r.code (pyUpper sc) = true)
    ∧ (∀ data : List Record,
        (specific_code_search data []).map Record.code = data.map Record.code) := by
  refine ⟨fun data sc => scs_codes data sc, fun data sc r hr => ?_, fun data => ?_⟩
  · simp only [specific_code_search] at hr
    obtain ⟨r0, hr0, rfl⟩ := List.mem_map.mp hr
    obtain ⟨-, hq⟩ := List.mem_filter.mp hr0
    exact ⟨rfl, hq⟩
  · rw [scs_codes data []]
    exact List.filter_eq_self.mpr fun a _ => by cases a <;> rfl

/-- Witness for C7: on a collection storing a stale chapter value, the
returned record's chapter equals the query-time classification. -/
theorem specific_code_search_spec_witness :
    (⟨codepoints "2A20", "2. Neoplasms"⟩ : Record).category
        = find_category (.str (codepoints "2A20"))
      ∧ startswith (codepoints "2A20") (pyUpper (codepoints "2a")) = true :=
  specific_code_search_spec.2.1 [⟨codepoints "2A20", "STALE"⟩] (codepoints "2a")
    ⟨codepoints "2A20", "2. Neoplasms"⟩ (by decide)

/-- C8: classification is invariant under surrounding whitespace and
letter case: classifying any string equals classifying its trimmed,
uppercased form; in particular `" 2a20 "` and `"2A20"` classify alike. -/
theorem classify_normalization_invariant :
    (∀ c : PyStr, find_category (.str c) = find_category (.str (normalize c)))
    ∧ find_category (.str (codepoints " 2a20 ")) = find_category (.str (codepoints "2A20")) := by
  refine ⟨fun c => ?_, by decide⟩
  show find_categoryAux icd11_ranges (normalize c)
      = find_categoryAux icd11_ranges (normalize (normalize c))
  rw [normalize_idem]

/-- C9: range and specific-code search never change the stored collection
(the post-state equals the pre-state, every record's fields intact), they
return order-preserving subsequences, and rerunning a query after the
first run gives identical output. -/
theorem queries_preserve_collection :
    ∀ (st : List Record) (start stop sc : PyStr),
      (range_search_op st start stop).2 = st
      ∧ (specific_code_search_op st sc).2 = st
      ∧ (range_search_op st start stop).1.Sublist st
      ∧ ((specific_code_search_op st sc).1.map Record.code).Sublist (st.map Record.code)
      ∧ (range_search_op (range_search_op st start stop).2 start stop).1
          = (range_search_op st start stop).1
      ∧ (specific_code_search_op (specific_code_search_op st sc).2 sc).1
          = (specific_code_search_op st sc).1 := by
  intro st start stop sc
  refine ⟨rfl, rfl, List.filter_sublist _, ?_, rfl, rfl⟩
  show ((specific_code_search st sc).map Record.code).Sublist (st.map Record.code)
  rw [scs_codes]
  exact List.filter_sublist _

/-- C10: `find_category` coerces its argument with `str(...)` before
normalizing, so non-string inputs such as numbers or `None` are handled
without a type error; classifying the integer 1 behaves exactly like
classifying the string `"1"`. -/
theorem classify_coerces_to_string :
    (∀ v : PyVal, find_category v = find_category (.str (pyStr v)))
    ∧ find_category (.int 1) = find_category (.str (codepoints "1"))
    ∧ find_category .none = find_category (.str (codepoints "None")) :=
  ⟨fun _ => rfl, by decide, rfl⟩

-- Concrete evaluations of the embedded operations.
example : find_category (.str (codepoints "1A00")) = "1. Certain infectious or parasitic diseases" := by decide
example : find_category (.str (codepoints "1H0Z")) = "1. Certain infectious or parasitic diseases" := by decide
example : find_category (.str (codepoints " 2a20 ")) = "2. Neoplasms" := by decide
example : find_category (.str (codepoints "ZZZZ")) = "Unknown" := by decide
example : find_category (.str (codepoints "")) = "Unknown" := by decide
example : find_category (.int 1) = "Unknown" := by decide
example : find_category (.str (codepoints "2A")) = "2. Neoplasms" := by decide
example : find_category (.str (codepoints "2F9Z1")) = "Unknown" := by decide
example :
    summary (loadCollection [.str (codepoints "2A20"), .str (codepoints "1A00"),
      .str (codepoints "zzzz"), .str (codepoints "2a21")]) =
    [("2. Neoplasms", 2), ("1. Certain infectious or parasitic diseases", 1), ("Unknown", 1)] := by
  decide
example :
    range_search (loadCollection [.str (codepoints "2A20")]) (codepoints "2F00") (codepoints "2A00")
      = [] := by decide
example :
    (specific_code_search [⟨codepoints "2A20", "STALE"⟩] (codepoints "2a")).map Record.category
      = ["2. Neoplasms"] := by decide

end App
